import Mathlib

/-! Bit reversal, byte order and highest-set-bit primitives of `bchlib`.

Shallow embedding of `src/bchlib/bitrev.h` and `src/bchlib/linux_compat_endian.h`.

Conventions of the embedding

* A value of type `uint8_t`, `uint16_t`, `uint32_t`, `uint64_t` is a natural number below
  `2 ^ 8`, `2 ^ 16`, `2 ^ 32`, `2 ^ 64`.  Every conversion to one of these types that the
  C code performs (a cast, an assignment to a narrower variable, passing an argument,
  returning from a function) is written as an explicit `% 2 ^ w`.
* Operands narrower than `int` are promoted to `int` before `<<`, `>>`, `&`, `|`.  Right
  shifts, `&` and `|` of promoted (non-negative) operands never leave the range of `int`,
  so they are the plain operations on naturals.  So are the left shifts of an 8-bit or
  16-bit variable by at most 8 in `__bitrev8` and in the 8-bit and 16-bit macros, whose
  results stay below `2 ^ 24`.  The left shifts of a function result in `__bitrev16` and
  `__bitrev32` are evaluated by `int_shl`, which keeps the 32-bit pattern of the result, as
  the compiler the headers are written for does.
* The compiler intrinsics `_byteswap_ushort`, `_byteswap_ulong`, `_byteswap_uint64` and
  `_BitScanReverse` come from `<intrin.h>`, which is not part of the sources; they are
  modelled from their documented behaviour.
-/

namespace Bitrev

/-! Definitions -/

/-- Left shift `a << s` carried out in `int` after integer promotion; the result is kept as
its 32-bit pattern. -/
def int_shl (a s : Nat) : Nat := (a <<< s) % 2 ^ 32

/-- Source function `__bitrev8` (bitrev.h, lines 12-18): swap nibbles, then bit pairs, then
single bits; each statement ends with a cast to `uint8_t`. -/
def __bitrev8 (x : Nat) : Nat :=
  let x := ((x >>> 4) ||| (x <<< 4)) % 2 ^ 8
  let x := (((x &&& 0xCC) >>> 2) ||| ((x &&& 0x33) <<< 2)) % 2 ^ 8
  let x := (((x &&& 0xAA) >>> 1) ||| ((x &&& 0x55) <<< 1)) % 2 ^ 8
  x

/-- Source function `__bitrev16` (bitrev.h, lines 20-23).  The arguments `x & 0xff` and
`x >> 8` are converted to `uint8_t`, the shift by 8 happens in `int`, the returned value is
converted to `uint16_t`. -/
def __bitrev16 (x : Nat) : Nat :=
  (int_shl (__bitrev8 ((x &&& 0xff) % 2 ^ 8)) 8 ||| __bitrev8 ((x >>> 8) % 2 ^ 8)) % 2 ^ 16

/-- Source function `__bitrev32` (bitrev.h, lines 25-28).  The arguments `x & 0xffff` and
`x >> 16` are converted to `uint16_t`, the shift by 16 happens in `int` (the result of
`__bitrev16` is promoted), the returned value is converted to `uint32_t`. -/
def __bitrev32 (x : Nat) : Nat :=
  (int_shl (__bitrev16 ((x &&& 0xffff) % 2 ^ 16)) 16 ||| __bitrev16 ((x >>> 16) % 2 ^ 16))
    % 2 ^ 32

/-- Source macro `__constant_bitrev32` (bitrev.h, lines 32-41); the local `___x` is a
`uint32_t`, so every assignment reduces modulo `2 ^ 32`. -/
def __constant_bitrev32 (x : Nat) : Nat :=
  let x := x % 2 ^ 32
  let x := ((x >>> 16) ||| (x <<< 16)) % 2 ^ 32
  let x := (((x &&& 0xFF00FF00) >>> 8) ||| ((x &&& 0x00FF00FF) <<< 8)) % 2 ^ 32
  let x := (((x &&& 0xF0F0F0F0) >>> 4) ||| ((x &&& 0x0F0F0F0F) <<< 4)) % 2 ^ 32
  let x := (((x &&& 0xCCCCCCCC) >>> 2) ||| ((x &&& 0x33333333) <<< 2)) % 2 ^ 32
  let x := (((x &&& 0xAAAAAAAA) >>> 1) ||| ((x &&& 0x55555555) <<< 1)) % 2 ^ 32
  x

/-- Source macro `__constant_bitrev16` (bitrev.h, lines 43-51); the local `___x` is a
`uint16_t`, so every assignment reduces modulo `2 ^ 16`. -/
def __constant_bitrev16 (x : Nat) : Nat :=
  let x := x % 2 ^ 16
  let x := ((x >>> 8) ||| (x <<< 8)) % 2 ^ 16
  let x := (((x &&& 0xF0F0) >>> 4) ||| ((x &&& 0x0F0F) <<< 4)) % 2 ^ 16
  let x := (((x &&& 0xCCCC) >>> 2) ||| ((x &&& 0x3333) <<< 2)) % 2 ^ 16
  let x := (((x &&& 0xAAAA) >>> 1) ||| ((x &&& 0x5555) <<< 1)) % 2 ^ 16
  x

/-- Source macro `__constant_bitrev8x4` (bitrev.h, lines 53-60): the last three stages of
`__constant_bitrev32`, without the 16-bit and 8-bit exchanges. -/
def __constant_bitrev8x4 (x : Nat) : Nat :=
  let x := x % 2 ^ 32
  let x := (((x &&& 0xF0F0F0F0) >>> 4) ||| ((x &&& 0x0F0F0F0F) <<< 4)) % 2 ^ 32
  let x := (((x &&& 0xCCCCCCCC) >>> 2) ||| ((x &&& 0x33333333) <<< 2)) % 2 ^ 32
  let x := (((x &&& 0xAAAAAAAA) >>> 1) ||| ((x &&& 0x55555555) <<< 1)) % 2 ^ 32
  x

/-- Source macro `__constant_bitrev8` (bitrev.h, lines 62-69); the local `___x` is a
`uint8_t`, so every assignment reduces modulo `2 ^ 8`. -/
def __constant_bitrev8 (x : Nat) : Nat :=
  let x := x % 2 ^ 8
  let x := ((x >>> 4) ||| (x <<< 4)) % 2 ^ 8
  let x := (((x &&& 0xCC) >>> 2) ||| ((x &&& 0x33) <<< 2)) % 2 ^ 8
  let x := (((x &&& 0xAA) >>> 1) ||| ((x &&& 0x55) <<< 1)) % 2 ^ 8
  x

/-- Source function `bitrev8` (bitrev.h, line 71). -/
def bitrev8 (x : Nat) : Nat := __bitrev8 x

/-- Source function `bitrev16` (bitrev.h, line 72). -/
def bitrev16 (x : Nat) : Nat := __bitrev16 x

/-- Source function `bitrev32` (bitrev.h, line 73). -/
def bitrev32 (x : Nat) : Nat := __bitrev32 x

/-- Modelled from the spec: the intrinsic `_byteswap_ushort` of `<intrin.h>`, absent from
the sources, reverses the byte order of a 16-bit value (byte 0 exchanged with byte 1). -/
def _byteswap_ushort (x : Nat) : Nat :=
  ((x % 2 ^ 8) <<< 8) ||| ((x >>> 8) % 2 ^ 8)

/-- Modelled from the spec: the intrinsic `_byteswap_ulong` of `<intrin.h>`, absent from the
sources, reverses the byte order of a 32-bit word (byte 0 exchanged with byte 3, byte 1 with
byte 2). -/
def _byteswap_ulong (x : Nat) : Nat :=
  ((x % 2 ^ 8) <<< 24) ||| (((x >>> 8) % 2 ^ 8) <<< 16) ||| (((x >>> 16) % 2 ^ 8) <<< 8)
    ||| ((x >>> 24) % 2 ^ 8)

/-- Modelled from the spec: the intrinsic `_byteswap_uint64` of `<intrin.h>`, absent from
the sources, reverses the byte order of a 64-bit value (byte `k` exchanged with byte
`7 - k`). -/
def _byteswap_uint64 (x : Nat) : Nat :=
  ((x % 2 ^ 8) <<< 56) ||| (((x >>> 8) % 2 ^ 8) <<< 48) ||| (((x >>> 16) % 2 ^ 8) <<< 40)
    ||| (((x >>> 24) % 2 ^ 8) <<< 32) ||| (((x >>> 32) % 2 ^ 8) <<< 24)
    ||| (((x >>> 40) % 2 ^ 8) <<< 16) ||| (((x >>> 48) % 2 ^ 8) <<< 8)
    ||| ((x >>> 56) % 2 ^ 8)

/-- Source function `bitrev8x4` (bitrev.h, lines 76-80). -/
def bitrev8x4 (x : Nat) : Nat := __bitrev32 (_byteswap_ulong x)

/-- Downward scan used by `_BitScanReverse`: looks at bits `n - 1`, `n - 2`, ..., `0` of
`mask` and returns the index of the first one that is set. -/
def bsrFrom : Nat → Nat → Option Nat
  | 0, _ => none
  | n + 1, mask => if mask.testBit n then some n else bsrFrom n mask

/-- Modelled from the spec: the intrinsic `_BitScanReverse` of `<intrin.h>`, absent from the
sources, searches the 32-bit mask from the most significant bit to the least significant
one.  `some idx` means that `idx`, the 0-based index of the highest set bit, was stored
through the pointer; `none` means that the mask is zero and nothing was stored. -/
def _BitScanReverse (mask : Nat) : Option Nat := bsrFrom 32 mask

/-- Source function `fls_u32` (bitrev.h, lines 82-88).  The local `idx` is uninitialised
before the call of `_BitScanReverse`; reading it when nothing was stored is the undefined
step `none`. -/
def fls_u32 (x : Nat) : Option Int :=
  if x = 0 then some 0
  else
    match _BitScanReverse x with
    | some idx => some ((idx : Int) + 1)
    | none => none

/-- Source functions `cpu_to_be16`, `cpu_to_be32`, `cpu_to_be64`
(linux_compat_endian.h, lines 8-10). -/
def cpu_to_be16 (x : Nat) : Nat := _byteswap_ushort x

/-- See `cpu_to_be16`. -/
def cpu_to_be32 (x : Nat) : Nat := _byteswap_ulong x

/-- See `cpu_to_be16`. -/
def cpu_to_be64 (x : Nat) : Nat := _byteswap_uint64 x

/-- Source functions `be16_to_cpu`, `be32_to_cpu`, `be64_to_cpu`
(linux_compat_endian.h, lines 12-14). -/
def be16_to_cpu (x : Nat) : Nat := _byteswap_ushort x

/-- See `be16_to_cpu`. -/
def be32_to_cpu (x : Nat) : Nat := _byteswap_ulong x

/-- See `be16_to_cpu`. -/
def be64_to_cpu (x : Nat) : Nat := _byteswap_uint64 x

/-- Word whose byte `k` is `bitrev8` of byte `k` of `w`, for `k = 0, 1, 2, 3`: the bits are
reversed inside each byte and the bytes keep their positions. -/
def bitrev_each_byte32 (w : Nat) : Nat :=
  (bitrev8 ((w >>> 24) % 2 ^ 8) <<< 24) ||| (bitrev8 ((w >>> 16) % 2 ^ 8) <<< 16)
    ||| (bitrev8 ((w >>> 8) % 2 ^ 8) <<< 8) ||| bitrev8 (w % 2 ^ 8)

/-- Combined transform as the specification words it: reverse the byte order of the word,
then reverse the bits within each byte of the byte-swapped word. -/
def spec_reverse_byte_order_then_bits_32 (x : Nat) : Nat :=
  bitrev_each_byte32 (_byteswap_ulong x)

/-- One exchange stage of the mask-and-shift reversals:
`((x & mh) >> s) | ((x & ml) << s)` stored in an `n`-bit variable. -/
def swapStage (n s mh ml x : Nat) : Nat :=
  (((x &&& mh) >>> s) ||| ((x &&& ml) <<< s)) % 2 ^ n

/-- First stage of the mask-and-shift reversals: `(x >> s) | (x << s)` stored in an
`n`-bit variable. -/
def rotStage (n s x : Nat) : Nat := ((x >>> s) ||| (x <<< s)) % 2 ^ n

/-- Check, for every bit index `i < n`, that the masks `mh`, `ml` of an exchange stage with
shift `s` select exactly one source for bit `i`, namely bit `i ^^^ s`. -/
def stageOK (n s mh ml : Nat) : Bool :=
  (List.range n).all fun i =>
    (mh.testBit (s + i) && (decide (i < s) || !ml.testBit (i - s)) && (i ^^^ s == s + i)) ||
    (!mh.testBit (s + i) && decide (s ≤ i) && ml.testBit (i - s) && (i ^^^ s == i - s))

/-- Check, for every bit index `i < n`, that exchanging the halves of an `n`-bit value by a
shift of `s` brings bit `i ^^^ s` to position `i`. -/
def rotOK (n s : Nat) : Bool :=
  (List.range n).all fun i =>
    (decide (i < s) && (i ^^^ s == s + i)) ||
    (decide (s ≤ i) && decide (n ≤ s + i) && (i ^^^ s == i - s))

/-- Source macro `fls` (bitrev.h, line 90): the argument is cast to `uint32_t` before
`fls_u32` is called. -/
def fls (x : Nat) : Option Int := fls_u32 (x % 2 ^ 32)

/-- Left shift `a << s` of a non-negative `int`, as the C language defines it: the result is
`a * 2 ^ s` when that value is representable in `int`, that is below `2 ^ 31`; otherwise the
shift has no defined result (`none`). -/
def int_shl_checked (a s : Nat) : Option Nat :=
  if a <<< s < 2 ^ 31 then some (a <<< s) else none

/-- Source function `__bitrev8` (bitrev.h, lines 12-18), evaluated with the checked shift.
In the first statement `x` is promoted to `int`; in the other two the masks `0xCCu`, `0x33u`,
`0xAAu`, `0x55u` are unsigned, so those shifts are carried out modulo `2 ^ 32`. -/
def __bitrev8_checked (x : Nat) : Option Nat := do
  let s ← int_shl_checked x 4
  let x := ((x >>> 4) ||| s) % 2 ^ 8
  let x := (((x &&& 0xCC) >>> 2) ||| (((x &&& 0x33) <<< 2) % 2 ^ 32)) % 2 ^ 8
  let x := (((x &&& 0xAA) >>> 1) ||| (((x &&& 0x55) <<< 1) % 2 ^ 32)) % 2 ^ 8
  pure x

/-- Source function `__bitrev16` (bitrev.h, lines 20-23), evaluated with the checked
shift. -/
def __bitrev16_checked (x : Nat) : Option Nat := do
  let lo ← __bitrev8_checked ((x &&& 0xff) % 2 ^ 8)
  let s ← int_shl_checked lo 8
  let hi ← __bitrev8_checked ((x >>> 8) % 2 ^ 8)
  pure ((s ||| hi) % 2 ^ 16)

/-- Source function `__bitrev32` (bitrev.h, lines 25-28), evaluated with the checked shift:
the result of `__bitrev16` is promoted to `int` before it is shifted by 16. -/
def __bitrev32_checked (x : Nat) : Option Nat := do
  let lo ← __bitrev16_checked ((x &&& 0xffff) % 2 ^ 16)
  let s ← int_shl_checked lo 16
  let hi ← __bitrev16_checked ((x >>> 16) % 2 ^ 16)
  pure ((s ||| hi) % 2 ^ 32)

/-- Source function `bitrev32` (bitrev.h, line 73), evaluated with the checked shift. -/
def bitrev32_checked (x : Nat) : Option Nat := __bitrev32_checked x

/-- Source function `bitrev8x4` (bitrev.h, lines 76-80), evaluated with the checked
shift. -/
def bitrev8x4_checked (x : Nat) : Option Nat := __bitrev32_checked (_byteswap_ulong x)

/-- Number of set bits among the `w` low bits of `x`. -/
def popcount (w x : Nat) : Nat := (List.range w).countP (fun i => x.testBit i)

/-! Auxiliary lemmas on bits -/

theorem testBit_eq_false_of_lt {x n i : Nat} (hx : x < 2 ^ n) (hi : n ≤ i) :
    x.testBit i = false :=
  Nat.testBit_lt_two_pow (lt_of_lt_of_le hx (Nat.pow_le_pow_right (by norm_num) hi))

theorem eq_of_testBit_below (n : Nat) {x y : Nat} (hx : x < 2 ^ n) (hy : y < 2 ^ n)
    (h : ∀ i, i < n → x.testBit i = y.testBit i) : x = y := by
  apply Nat.eq_of_testBit_eq
  intro i
  by_cases hi : i < n
  · exact h i hi
  · rw [testBit_eq_false_of_lt hx (Nat.le_of_not_lt hi),
      testBit_eq_false_of_lt hy (Nat.le_of_not_lt hi)]

/-- Doubling step shared by `__bitrev16` and `__bitrev32`: if `r` reverses `w` bits, then
reversing both halves with `r` and exchanging them reverses `2 * w` bits. -/
theorem rev_double (w : Nat) (hw : 2 * w ≤ 32) (r : Nat → Nat)
    (hr : ∀ y, y < 2 ^ w → r y < 2 ^ w ∧ ∀ i, i < w → (r y).testBit i = y.testBit (w - 1 - i))
    (x i : Nat) (hi : i < 2 * w) :
    ((int_shl (r ((x &&& (2 ^ w - 1)) % 2 ^ w)) w ||| r ((x >>> w) % 2 ^ w))
        % 2 ^ (2 * w)).testBit i = x.testBit (2 * w - 1 - i) := by
  have hmask : (x &&& (2 ^ w - 1)) % 2 ^ w = x % 2 ^ w := by
    rw [Nat.and_pow_two_sub_one_eq_mod, Nat.mod_mod]
  rw [hmask]
  have hlo := hr (x % 2 ^ w) (Nat.mod_lt _ (by positivity))
  have hhi := hr ((x >>> w) % 2 ^ w) (Nat.mod_lt _ (by positivity))
  simp only [int_shl, Nat.testBit_mod_two_pow, Nat.testBit_or, Nat.testBit_shiftLeft, hi,
    decide_True, Bool.true_and]
  by_cases h : i < w
  · have h1 : ¬ (i ≥ w) := by omega
    have h3 : w - 1 - i < w := by omega
    have h4 : w + (w - 1 - i) = 2 * w - 1 - i := by omega
    rw [hhi.2 i h, Nat.testBit_mod_two_pow, Nat.testBit_shiftRight, h4]
    simp [h1, h3]
  · have h1 : i ≥ w := by omega
    have h2 : i < 32 := by omega
    have h3 : 2 * w - 1 - i < w := by omega
    have h4 : w - 1 - (i - w) = 2 * w - 1 - i := by omega
    have h5 : i - w < w := by omega
    rw [testBit_eq_false_of_lt hhi.1 h1, hlo.2 (i - w) h5, Nat.testBit_mod_two_pow, h4]
    simp [h1, h2, h3]

theorem bitrev8_bits : ∀ y, y < 2 ^ 8 → __bitrev8 y < 2 ^ 8 ∧
    ∀ i, i < 8 → (__bitrev8 y).testBit i = y.testBit (8 - 1 - i) := by
  set_option maxRecDepth 100000 in decide

theorem bitrev16_lt (x : Nat) : __bitrev16 x < 2 ^ 16 := Nat.mod_lt _ (by norm_num)

theorem bitrev32_lt (x : Nat) : __bitrev32 x < 2 ^ 32 := Nat.mod_lt _ (by norm_num)

theorem bitrev16_bits : ∀ y, y < 2 ^ 16 → __bitrev16 y < 2 ^ 16 ∧
    ∀ i, i < 16 → (__bitrev16 y).testBit i = y.testBit (16 - 1 - i) := by
  intro y _
  exact ⟨bitrev16_lt y, fun i hi => rev_double 8 (by norm_num) __bitrev8 bitrev8_bits y i hi⟩

theorem bitrev32_bits (y i : Nat) (hi : i < 32) :
    (__bitrev32 y).testBit i = y.testBit (31 - i) :=
  rev_double 16 (by norm_num) __bitrev16 bitrev16_bits y i hi

theorem stageOK_spec {n s mh ml : Nat} (h : stageOK n s mh ml = true) (i : Nat) (hi : i < n) :
    (mh.testBit (s + i) = true ∧ (s ≤ i → ml.testBit (i - s) = false) ∧ i ^^^ s = s + i) ∨
    (mh.testBit (s + i) = false ∧ s ≤ i ∧ ml.testBit (i - s) = true ∧ i ^^^ s = i - s) := by
  unfold stageOK at h
  rw [List.all_eq_true] at h
  have hi2 := h i (List.mem_range.mpr hi)
  simp only [Bool.or_eq_true, Bool.and_eq_true, decide_eq_true_eq, beq_iff_eq,
    Bool.not_eq_true'] at hi2
  rcases hi2 with ⟨⟨h1, h2⟩, h3⟩ | ⟨⟨⟨h1, h2⟩, h3⟩, h4⟩
  · left
    refine ⟨h1, fun hs => ?_, h3⟩
    rcases h2 with h2 | h2
    · omega
    · exact h2
  · right
    exact ⟨h1, h2, h3, h4⟩

/-- An exchange stage whose masks pass `stageOK` moves bit `i ^^^ s` to position `i`. -/
theorem swapStage_testBit {n s mh ml : Nat} (h : stageOK n s mh ml = true) (x i : Nat)
    (hi : i < n) : (swapStage n s mh ml x).testBit i = x.testBit (i ^^^ s) := by
  unfold swapStage
  simp only [Nat.testBit_mod_two_pow, Nat.testBit_or, Nat.testBit_shiftRight,
    Nat.testBit_shiftLeft, Nat.testBit_and, hi, decide_True, Bool.true_and]
  rcases stageOK_spec h i hi with ⟨h1, h2, h3⟩ | ⟨h1, h2, h3, h4⟩
  · rw [h1, h3]
    by_cases hs : s ≤ i
    · simp [h2 hs]
    · simp [hs]
  · rw [h1, h3, h4]
    simp [h2]

theorem swapStage_lt (n s mh ml x : Nat) : swapStage n s mh ml x < 2 ^ n :=
  Nat.mod_lt _ (by positivity)

theorem rotStage_lt (n s x : Nat) : rotStage n s x < 2 ^ n :=
  Nat.mod_lt _ (by positivity)

theorem rotOK_spec {n s : Nat} (h : rotOK n s = true) (i : Nat) (hi : i < n) :
    (i < s ∧ i ^^^ s = s + i) ∨ (s ≤ i ∧ n ≤ s + i ∧ i ^^^ s = i - s) := by
  unfold rotOK at h
  rw [List.all_eq_true] at h
  have hi2 := h i (List.mem_range.mpr hi)
  simp only [Bool.or_eq_true, Bool.and_eq_true, decide_eq_true_eq, beq_iff_eq] at hi2
  rcases hi2 with ⟨h1, h2⟩ | ⟨⟨h1, h2⟩, h3⟩
  · exact Or.inl ⟨h1, h2⟩
  · exact Or.inr ⟨h1, h2, h3⟩

/-- A half-exchange stage that passes `rotOK` moves bit `i ^^^ s` of an `n`-bit value to
position `i`. -/
theorem rotStage_testBit {n s : Nat} (h : rotOK n s = true) (x i : Nat) (hx : x < 2 ^ n)
    (hi : i < n) : (rotStage n s x).testBit i = x.testBit (i ^^^ s) := by
  unfold rotStage
  simp only [Nat.testBit_mod_two_pow, Nat.testBit_or, Nat.testBit_shiftRight,
    Nat.testBit_shiftLeft, hi, decide_True, Bool.true_and]
  rcases rotOK_spec h i hi with ⟨h1, h2⟩ | ⟨h1, h2, h3⟩
  · have h4 : ¬ (i ≥ s) := by omega
    rw [h2]
    simp [h4]
  · rw [h3, testBit_eq_false_of_lt hx h2]
    simp [h1]

theorem constant_bitrev32_stages (x : Nat) : __constant_bitrev32 x =
    swapStage 32 1 0xAAAAAAAA 0x55555555 (swapStage 32 2 0xCCCCCCCC 0x33333333
      (swapStage 32 4 0xF0F0F0F0 0x0F0F0F0F (swapStage 32 8 0xFF00FF00 0x00FF00FF
        (rotStage 32 16 (x % 2 ^ 32))))) := rfl

theorem xor_lt_32 {i c : Nat} (hi : i < 32) (hc : c < 32) : i ^^^ c < 32 :=
  Nat.xor_lt_two_pow (n := 5) hi hc

theorem constant_bitrev32_bits (x i : Nat) (hi : i < 32) :
    (__constant_bitrev32 x).testBit i = (x % 2 ^ 32).testBit (31 - i) := by
  have e : ∀ j, j < 32 → ((((j ^^^ 1) ^^^ 2) ^^^ 4) ^^^ 8) ^^^ 16 = 31 - j := by decide
  have h1 := xor_lt_32 hi (c := 1) (by norm_num)
  have h2 := xor_lt_32 h1 (c := 2) (by norm_num)
  have h4 := xor_lt_32 h2 (c := 4) (by norm_num)
  have h8 := xor_lt_32 h4 (c := 8) (by norm_num)
  rw [constant_bitrev32_stages, swapStage_testBit (by decide) _ _ hi,
    swapStage_testBit (by decide) _ _ h1, swapStage_testBit (by decide) _ _ h2,
    swapStage_testBit (by decide) _ _ h4,
    rotStage_testBit (by decide) _ _ (Nat.mod_lt _ (by norm_num)) h8, e i hi]

theorem constant_bitrev16_stages (x : Nat) : __constant_bitrev16 x =
    swapStage 16 1 0xAAAA 0x5555 (swapStage 16 2 0xCCCC 0x3333
      (swapStage 16 4 0xF0F0 0x0F0F (rotStage 16 8 (x % 2 ^ 16)))) := rfl

theorem xor_lt_16 {i c : Nat} (hi : i < 16) (hc : c < 16) : i ^^^ c < 16 :=
  Nat.xor_lt_two_pow (n := 4) hi hc

theorem constant_bitrev16_bits (x i : Nat) (hi : i < 16) :
    (__constant_bitrev16 x).testBit i = (x % 2 ^ 16).testBit (15 - i) := by
  have e : ∀ j, j < 16 → (((j ^^^ 1) ^^^ 2) ^^^ 4) ^^^ 8 = 15 - j := by decide
  have h1 := xor_lt_16 hi (c := 1) (by norm_num)
  have h2 := xor_lt_16 h1 (c := 2) (by norm_num)
  have h4 := xor_lt_16 h2 (c := 4) (by norm_num)
  rw [constant_bitrev16_stages, swapStage_testBit (by decide) _ _ hi,
    swapStage_testBit (by decide) _ _ h1, swapStage_testBit (by decide) _ _ h2,
    rotStage_testBit (by decide) _ _ (Nat.mod_lt _ (by norm_num)) h4, e i hi]

theorem constant_bitrev8x4_stages (x : Nat) : __constant_bitrev8x4 x =
    swapStage 32 1 0xAAAAAAAA 0x55555555 (swapStage 32 2 0xCCCCCCCC 0x33333333
      (swapStage 32 4 0xF0F0F0F0 0x0F0F0F0F (x % 2 ^ 32))) := rfl

theorem constant_bitrev8x4_bits (x i : Nat) (hi : i < 32) :
    (__constant_bitrev8x4 x).testBit i = (x % 2 ^ 32).testBit (i ^^^ 7) := by
  have e : ∀ j, j < 32 → ((j ^^^ 1) ^^^ 2) ^^^ 4 = j ^^^ 7 := by decide
  have h1 := xor_lt_32 hi (c := 1) (by norm_num)
  have h2 := xor_lt_32 h1 (c := 2) (by norm_num)
  rw [constant_bitrev8x4_stages, swapStage_testBit (by decide) _ _ hi,
    swapStage_testBit (by decide) _ _ h1, swapStage_testBit (by decide) _ _ h2, e i hi]

theorem byteswap_ulong_lt (x : Nat) : _byteswap_ulong x < 2 ^ 32 := by
  unfold _byteswap_ulong
  have h0 : x % 2 ^ 8 < 2 ^ 8 := Nat.mod_lt _ (by norm_num)
  have h1 : (x >>> 8) % 2 ^ 8 < 2 ^ 8 := Nat.mod_lt _ (by norm_num)
  have h2 : (x >>> 16) % 2 ^ 8 < 2 ^ 8 := Nat.mod_lt _ (by norm_num)
  have h3 : (x >>> 24) % 2 ^ 8 < 2 ^ 8 := Nat.mod_lt _ (by norm_num)
  refine Nat.or_lt_two_pow (Nat.or_lt_two_pow (Nat.or_lt_two_pow ?_ ?_) ?_) ?_
  · rw [Nat.shiftLeft_eq]; omega
  · rw [Nat.shiftLeft_eq]; omega
  · rw [Nat.shiftLeft_eq]; omega
  · omega

/-- Bit `i` of the byte-swapped word is bit `i ^^^ 24` of the argument. -/
theorem byteswap_ulong_bits (x i : Nat) (hx : x < 2 ^ 32) (hi : i < 32) :
    (_byteswap_ulong x).testBit i = x.testBit (i ^^^ 24) := by
  have hz : ∀ j, 32 ≤ j → x.testBit j = false := fun j hj => testBit_eq_false_of_lt hx hj
  unfold _byteswap_ulong
  simp only [Nat.testBit_mod_two_pow, Nat.testBit_or, Nat.testBit_shiftRight,
    Nat.testBit_shiftLeft]
  interval_cases i <;> simp

theorem byteswap_ushort_lt (x : Nat) : _byteswap_ushort x < 2 ^ 16 := by
  unfold _byteswap_ushort
  have h0 : x % 2 ^ 8 < 2 ^ 8 := Nat.mod_lt _ (by norm_num)
  have h1 : (x >>> 8) % 2 ^ 8 < 2 ^ 8 := Nat.mod_lt _ (by norm_num)
  refine Nat.or_lt_two_pow ?_ ?_
  · rw [Nat.shiftLeft_eq]; omega
  · omega

/-- Bit `i` of the byte-swapped 16-bit value is bit `i ^^^ 8` of the argument. -/
theorem byteswap_ushort_bits (x i : Nat) (hx : x < 2 ^ 16) (hi : i < 16) :
    (_byteswap_ushort x).testBit i = x.testBit (i ^^^ 8) := by
  have hz : ∀ j, 16 ≤ j → x.testBit j = false := fun j hj => testBit_eq_false_of_lt hx hj
  unfold _byteswap_ushort
  simp only [Nat.testBit_mod_two_pow, Nat.testBit_or, Nat.testBit_shiftRight,
    Nat.testBit_shiftLeft]
  interval_cases i <;> simp

theorem byteswap_uint64_lt (x : Nat) : _byteswap_uint64 x < 2 ^ 64 := by
  unfold _byteswap_uint64
  have h0 : x % 2 ^ 8 < 2 ^ 8 := Nat.mod_lt _ (by norm_num)
  have h1 : (x >>> 8) % 2 ^ 8 < 2 ^ 8 := Nat.mod_lt _ (by norm_num)
  have h2 : (x >>> 16) % 2 ^ 8 < 2 ^ 8 := Nat.mod_lt _ (by norm_num)
  have h3 : (x >>> 24) % 2 ^ 8 < 2 ^ 8 := Nat.mod_lt _ (by norm_num)
  have h4 : (x >>> 32) % 2 ^ 8 < 2 ^ 8 := Nat.mod_lt _ (by norm_num)
  have h5 : (x >>> 40) % 2 ^ 8 < 2 ^ 8 := Nat.mod_lt _ (by norm_num)
  have h6 : (x >>> 48) % 2 ^ 8 < 2 ^ 8 := Nat.mod_lt _ (by norm_num)
  have h7 : (x >>> 56) % 2 ^ 8 < 2 ^ 8 := Nat.mod_lt _ (by norm_num)
  refine Nat.or_lt_two_pow (Nat.or_lt_two_pow (Nat.or_lt_two_pow (Nat.or_lt_two_pow
    (Nat.or_lt_two_pow (Nat.or_lt_two_pow (Nat.or_lt_two_pow ?_ ?_) ?_) ?_) ?_) ?_) ?_) ?_
  · rw [Nat.shiftLeft_eq]; omega
  · rw [Nat.shiftLeft_eq]; omega
  · rw [Nat.shiftLeft_eq]; omega
  · rw [Nat.shiftLeft_eq]; omega
  · rw [Nat.shiftLeft_eq]; omega
  · rw [Nat.shiftLeft_eq]; omega
  · rw [Nat.shiftLeft_eq]; omega
  · omega

/-- Bit `i` of the byte-swapped 64-bit value is bit `i ^^^ 56` of the argument. -/
theorem byteswap_uint64_bits (x i : Nat) (hx : x < 2 ^ 64) (hi : i < 64) :
    (_byteswap_uint64 x).testBit i = x.testBit (i ^^^ 56) := by
  have hz : ∀ j, 64 ≤ j → x.testBit j = false := fun j hj => testBit_eq_false_of_lt hx hj
  unfold _byteswap_uint64
  simp only [Nat.testBit_mod_two_pow, Nat.testBit_or, Nat.testBit_shiftRight,
    Nat.testBit_shiftLeft]
  interval_cases i <;> simp

/-- A byte swap whose bits obey `i ↦ i ^^^ c` on `2 ^ k` bits is its own inverse. -/
theorem xor_swap_involutive (k c : Nat) (hc : c < 2 ^ k) (f : Nat → Nat)
    (hlt : ∀ x, f x < 2 ^ 2 ^ k)
    (hbits : ∀ x i, x < 2 ^ 2 ^ k → i < 2 ^ k → (f x).testBit i = x.testBit (i ^^^ c))
    (x : Nat) (hx : x < 2 ^ 2 ^ k) : f (f x) = x := by
  refine eq_of_testBit_below (2 ^ k) (hlt _) hx (fun i hi => ?_)
  rw [hbits _ i (hlt x) hi, hbits x _ hx (Nat.xor_lt_two_pow hi hc), Nat.xor_assoc,
    Nat.xor_self, Nat.xor_zero]

theorem bsrFrom_some {n mask k : Nat} (h : bsrFrom n mask = some k) :
    k < n ∧ mask.testBit k = true ∧ ∀ j, k < j → j < n → mask.testBit j = false := by
  induction n with
  | zero => simp [bsrFrom] at h
  | succ n ih =>
    unfold bsrFrom at h
    by_cases hb : mask.testBit n = true
    · rw [if_pos hb] at h
      have hk : n = k := Option.some.inj h
      subst hk
      exact ⟨Nat.lt_succ_self _, hb, fun j h1 h2 => by omega⟩
    · rw [if_neg hb] at h
      obtain ⟨h1, h2, h3⟩ := ih h
      refine ⟨Nat.lt_succ_of_lt h1, h2, fun j hj1 hj2 => ?_⟩
      by_cases hjn : j = n
      · subst hjn
        simpa using hb
      · exact h3 j hj1 (by omega)

theorem bsrFrom_none {n mask : Nat} (h : bsrFrom n mask = none) :
    ∀ j, j < n → mask.testBit j = false := by
  induction n with
  | zero => intro j hj; omega
  | succ n ih =>
    unfold bsrFrom at h
    by_cases hb : mask.testBit n = true
    · rw [if_pos hb] at h
      exact absurd h (by simp)
    · rw [if_neg hb] at h
      intro j hj
      by_cases hjn : j = n
      · subst hjn
        simpa using hb
      · exact ih h j (by omega)

/-- On a nonzero 32-bit mask the scan finds a bit. -/
theorem bitScanReverse_isSome (x : Nat) (hx : x < 2 ^ 32) (h0 : x ≠ 0) :
    ∃ idx, _BitScanReverse x = some idx := by
  unfold _BitScanReverse
  cases h : bsrFrom 32 x with
  | some idx => exact ⟨idx, rfl⟩
  | none =>
    exfalso
    apply h0
    refine eq_of_testBit_below 32 hx (by norm_num) (fun i hi => ?_)
    rw [bsrFrom_none h i hi, Nat.zero_testBit]

/-- Bits of `bitrev8` applied to the byte of `w` that starts at bit `s`. -/
theorem bitrev8_byte_testBit (w s j : Nat) :
    (bitrev8 ((w >>> s) % 2 ^ 8)).testBit j = (decide (j < 8) && w.testBit (s + (7 - j))) := by
  have hb := bitrev8_bits ((w >>> s) % 2 ^ 8) (Nat.mod_lt _ (by norm_num))
  unfold bitrev8
  by_cases hj : j < 8
  · have h7 : 7 - j < 8 := by omega
    rw [hb.2 j hj, Nat.testBit_mod_two_pow, Nat.testBit_shiftRight]
    simp [hj, h7]
  · rw [testBit_eq_false_of_lt hb.1 (Nat.le_of_not_lt hj)]
    simp [hj]

theorem bitrev8_low_byte_testBit (w j : Nat) :
    (bitrev8 (w % 2 ^ 8)).testBit j = (decide (j < 8) && w.testBit (7 - j)) := by
  have h := bitrev8_byte_testBit w 0 j
  rwa [Nat.shiftRight_zero, Nat.zero_add] at h

theorem bitrev8_lt (x : Nat) : bitrev8 x < 2 ^ 8 := Nat.mod_lt _ (by norm_num)

theorem bitrev_each_byte32_lt (w : Nat) : bitrev_each_byte32 w < 2 ^ 32 := by
  unfold bitrev_each_byte32
  have h0 := bitrev8_lt (w % 2 ^ 8)
  have h1 := bitrev8_lt ((w >>> 8) % 2 ^ 8)
  have h2 := bitrev8_lt ((w >>> 16) % 2 ^ 8)
  have h3 := bitrev8_lt ((w >>> 24) % 2 ^ 8)
  refine Nat.or_lt_two_pow (Nat.or_lt_two_pow (Nat.or_lt_two_pow ?_ ?_) ?_) ?_
  · rw [Nat.shiftLeft_eq]; omega
  · rw [Nat.shiftLeft_eq]; omega
  · rw [Nat.shiftLeft_eq]; omega
  · omega

/-- Reversing the bits inside each byte moves bit `i ^^^ 7` to position `i`. -/
theorem bitrev_each_byte32_bits (w i : Nat) (hi : i < 32) :
    (bitrev_each_byte32 w).testBit i = w.testBit (i ^^^ 7) := by
  unfold bitrev_each_byte32
  simp only [Nat.testBit_or, Nat.testBit_shiftLeft, bitrev8_byte_testBit,
    bitrev8_low_byte_testBit]
  interval_cases i <;> simp

/-- Bits of `bitrev8x4`: bit `i` of the result is bit `i ^^^ 7` of the argument. -/
theorem bitrev8x4_bits (x i : Nat) (hx : x < 2 ^ 32) (hi : i < 32) :
    (bitrev8x4 x).testBit i = x.testBit (i ^^^ 7) := by
  have e : ∀ j, j < 32 → (31 - j) ^^^ 24 = j ^^^ 7 := by decide
  unfold bitrev8x4
  rw [bitrev32_bits _ i hi, byteswap_ulong_bits x _ hx (by omega), e i hi]

/-! The claims -/

/-- C1: for every 32-bit `x`, `bitrev32 x` is a 32-bit value whose bit `i` is bit `31 - i`
of `x`, for every `i` in `0..31`; `bitrev32` is the full 32-bit bit reversal. -/
theorem bitrev32_reverses_bits (x : Nat) (_hx : x < 2 ^ 32) :
    bitrev32 x < 2 ^ 32 ∧ ∀ i, i < 32 → (bitrev32 x).testBit i = x.testBit (31 - i) :=
  ⟨bitrev32_lt x, fun i hi => bitrev32_bits x i hi⟩

theorem bitrev32_reverses_bits_witness :
    (0x12345678 : Nat) < 2 ^ 32 ∧ (bitrev32 0x12345678 < 2 ^ 32 ∧
      ∀ i, i < 32 → (bitrev32 0x12345678).testBit i = Nat.testBit 0x12345678 (31 - i)) :=
  ⟨by decide, bitrev32_reverses_bits 0x12345678 (by decide)⟩

/-- C2: for every 8-bit `x`, `bitrev8 x` is an 8-bit value whose bit `i` is bit `7 - i` of
`x`, for every `i` in `0..7`: the three-stage swap reverses the order of the 8 bits. -/
theorem bitrev8_reverses_bits (x : Nat) (hx : x < 2 ^ 8) :
    bitrev8 x < 2 ^ 8 ∧ ∀ i, i < 8 → (bitrev8 x).testBit i = x.testBit (7 - i) :=
  bitrev8_bits x hx

theorem bitrev8_reverses_bits_witness :
    (0xA5 : Nat) < 2 ^ 8 ∧ (bitrev8 0xA5 < 2 ^ 8 ∧
      ∀ i, i < 8 → (bitrev8 0xA5).testBit i = Nat.testBit 0xA5 (7 - i)) :=
  ⟨by decide, bitrev8_reverses_bits 0xA5 (by decide)⟩

/-- C3: for every 16-bit `x`, `bitrev16 x` is a 16-bit value whose bit `i` is bit `15 - i`
of `x`, for every `i` in `0..15`: reversing each byte and exchanging the two bytes reverses
all 16 bits. -/
theorem bitrev16_reverses_bits (x : Nat) (hx : x < 2 ^ 16) :
    bitrev16 x < 2 ^ 16 ∧ ∀ i, i < 16 → (bitrev16 x).testBit i = x.testBit (15 - i) :=
  bitrev16_bits x hx

theorem bitrev16_reverses_bits_witness :
    (0x1234 : Nat) < 2 ^ 16 ∧ (bitrev16 0x1234 < 2 ^ 16 ∧
      ∀ i, i < 16 → (bitrev16 0x1234).testBit i = Nat.testBit 0x1234 (15 - i)) :=
  ⟨by decide, bitrev16_reverses_bits 0x1234 (by decide)⟩

/-- C4: bit reversal is an involution at every width: `bitrev8 (bitrev8 x) = x` for every
8-bit `x`, `bitrev16 (bitrev16 x) = x` for every 16-bit `x`, `bitrev32 (bitrev32 x) = x` for
every 32-bit `x`. -/
theorem bitrev_involution :
    (∀ x, x < 2 ^ 8 → bitrev8 (bitrev8 x) = x) ∧
    (∀ x, x < 2 ^ 16 → bitrev16 (bitrev16 x) = x) ∧
    (∀ x, x < 2 ^ 32 → bitrev32 (bitrev32 x) = x) := by
  refine ⟨fun x hx => ?_, fun x hx => ?_, fun x hx => ?_⟩
  · have h1 := bitrev8_bits x hx
    have h2 := bitrev8_bits _ h1.1
    refine eq_of_testBit_below 8 h2.1 hx (fun i hi => ?_)
    show (__bitrev8 (__bitrev8 x)).testBit i = x.testBit i
    rw [h2.2 i hi, h1.2 _ (by omega)]
    congr 1
    omega
  · have h1 := bitrev16_bits x hx
    have h2 := bitrev16_bits _ h1.1
    refine eq_of_testBit_below 16 h2.1 hx (fun i hi => ?_)
    show (__bitrev16 (__bitrev16 x)).testBit i = x.testBit i
    rw [h2.2 i hi, h1.2 _ (by omega)]
    congr 1
    omega
  · refine eq_of_testBit_below 32 (bitrev32_lt _) hx (fun i hi => ?_)
    show (__bitrev32 (__bitrev32 x)).testBit i = x.testBit i
    rw [bitrev32_bits _ i hi, bitrev32_bits x _ (by omega)]
    congr 1
    omega

theorem bitrev_involution_witness :
    bitrev8 (bitrev8 0x01) = 0x01 ∧ bitrev16 (bitrev16 0x1234) = 0x1234 ∧
      bitrev32 (bitrev32 0x12345678) = 0x12345678 :=
  ⟨bitrev_involution.1 0x01 (by decide), bitrev_involution.2.1 0x1234 (by decide),
    bitrev_involution.2.2 0x12345678 (by decide)⟩

/-- C5: the constant-folding macros agree with the runtime functions on every input of the
width: `__constant_bitrev8 x = bitrev8 x`, `__constant_bitrev16 x = bitrev16 x` and
`__constant_bitrev32 x = bitrev32 x`. -/
theorem constant_bitrev_eq_bitrev :
    (∀ x, x < 2 ^ 8 → __constant_bitrev8 x = bitrev8 x) ∧
    (∀ x, x < 2 ^ 16 → __constant_bitrev16 x = bitrev16 x) ∧
    (∀ x, x < 2 ^ 32 → __constant_bitrev32 x = bitrev32 x) := by
  refine ⟨?_, fun x hx => ?_, fun x hx => ?_⟩
  · set_option maxRecDepth 100000 in decide
  · refine eq_of_testBit_below 16 (Nat.mod_lt _ (by norm_num)) (bitrev16_lt x)
      (fun i hi => ?_)
    show (__constant_bitrev16 x).testBit i = (__bitrev16 x).testBit i
    rw [constant_bitrev16_bits x i hi, (bitrev16_bits x hx).2 i hi, Nat.mod_eq_of_lt hx]
  · refine eq_of_testBit_below 32 (Nat.mod_lt _ (by norm_num)) (bitrev32_lt x)
      (fun i hi => ?_)
    show (__constant_bitrev32 x).testBit i = (__bitrev32 x).testBit i
    rw [constant_bitrev32_bits x i hi, bitrev32_bits x i hi, Nat.mod_eq_of_lt hx]

theorem constant_bitrev_eq_bitrev_witness :
    __constant_bitrev8 0xAA = bitrev8 0xAA ∧ __constant_bitrev16 0x1234 = bitrev16 0x1234 ∧
      __constant_bitrev32 0x12345678 = bitrev32 0x12345678 :=
  ⟨constant_bitrev_eq_bitrev.1 0xAA (by decide),
    constant_bitrev_eq_bitrev.2.1 0x1234 (by decide),
    constant_bitrev_eq_bitrev.2.2 0x12345678 (by decide)⟩

/-- C6: `fls_u32 0 = 0`, and for every nonzero 32-bit `x` the function returns the 1-based
index `r` of the most significant set bit: `1 ≤ r ≤ 32`, bit `r - 1` of `x` is set, every
bit from `r` upwards is clear, and `2 ^ (r - 1) ≤ x < 2 ^ r`. -/
theorem fls_u32_highest_set_bit :
    fls_u32 0 = some 0 ∧
    ∀ x, x ≠ 0 → x < 2 ^ 32 →
      ∃ r : Nat, fls_u32 x = some (r : Int) ∧ 1 ≤ r ∧ r ≤ 32 ∧ x.testBit (r - 1) = true ∧
        (∀ j, r ≤ j → x.testBit j = false) ∧ 2 ^ (r - 1) ≤ x ∧ x < 2 ^ r := by
  refine ⟨rfl, fun x h0 hx => ?_⟩
  obtain ⟨idx, hidx⟩ := bitScanReverse_isSome x hx h0
  obtain ⟨h1, h2, h3⟩ := bsrFrom_some hidx
  have hclear : ∀ j, idx + 1 ≤ j → x.testBit j = false := by
    intro j hj
    by_cases hj32 : j < 32
    · exact h3 j (by omega) hj32
    · exact testBit_eq_false_of_lt hx (Nat.le_of_not_lt hj32)
  refine ⟨idx + 1, ?_, by omega, by omega, ?_, hclear, ?_, ?_⟩
  · unfold fls_u32
    rw [if_neg h0, hidx]
    simp
  · simpa using h2
  · simpa using Nat.testBit_implies_ge h2
  · exact Nat.lt_pow_two_of_testBit x hclear

theorem fls_u32_highest_set_bit_witness :
    ∃ r : Nat, fls_u32 0x00012345 = some (r : Int) ∧ 1 ≤ r ∧ r ≤ 32 ∧
      Nat.testBit 0x00012345 (r - 1) = true ∧
      (∀ j, r ≤ j → Nat.testBit 0x00012345 j = false) ∧
      2 ^ (r - 1) ≤ 0x00012345 ∧ 0x00012345 < 2 ^ r :=
  fls_u32_highest_set_bit.2 0x00012345 (by decide) (by decide)

/-- C7, the claim as worded fails: at `x = 1` the code returns `0x00000080`, whereas
reversing the byte order and then the bits within each byte of the swapped word gives
`0x80000000`. -/
theorem bitrev8x4_ne_swap_then_each_byte :
    ¬ ∀ x, x < 2 ^ 32 → bitrev8x4 x = spec_reverse_byte_order_then_bits_32 x := by
  intro h
  have h1 := h 1 (by decide)
  revert h1
  decide

/-- C7, amended: for every 32-bit `x`, `bitrev8x4 x` is the 32-bit word obtained by first
reversing the byte order of `x` and then reversing all 32 bits of the byte-swapped word
(bit `i` of the result is bit `31 - i` of the swapped word); the net effect is that the
bits are reversed within each byte of `x` while the bytes keep their positions. -/
theorem bitrev8x4_reverses_swapped_word (x : Nat) (hx : x < 2 ^ 32) :
    bitrev8x4 x < 2 ^ 32 ∧
    (∀ i, i < 32 → (bitrev8x4 x).testBit i = (_byteswap_ulong x).testBit (31 - i)) ∧
    bitrev8x4 x = bitrev_each_byte32 x := by
  refine ⟨bitrev32_lt _, fun i hi => bitrev32_bits _ i hi, ?_⟩
  refine eq_of_testBit_below 32 (bitrev32_lt _) (bitrev_each_byte32_lt x) (fun i hi => ?_)
  rw [bitrev8x4_bits x i hx hi, bitrev_each_byte32_bits x i hi]

theorem bitrev8x4_reverses_swapped_word_witness :
    (1 : Nat) < 2 ^ 32 ∧ (bitrev8x4 1 < 2 ^ 32 ∧
      (∀ i, i < 32 → (bitrev8x4 1).testBit i = (_byteswap_ulong 1).testBit (31 - i)) ∧
      bitrev8x4 1 = bitrev_each_byte32 1) :=
  ⟨by decide, bitrev8x4_reverses_swapped_word 1 (by decide)⟩

/-- C8: for every 32-bit `x`, the runtime `bitrev8x4 x` and the mask-and-shift macro
`__constant_bitrev8x4 x` return the same value, and that value is `bitrev32` applied to the
byte-order-swapped `x`. -/
theorem bitrev8x4_eq_constant_bitrev8x4 (x : Nat) (hx : x < 2 ^ 32) :
    bitrev8x4 x = __constant_bitrev8x4 x ∧ bitrev8x4 x = bitrev32 (_byteswap_ulong x) := by
  refine ⟨?_, rfl⟩
  refine eq_of_testBit_below 32 (bitrev32_lt _) (Nat.mod_lt _ (by norm_num)) (fun i hi => ?_)
  rw [bitrev8x4_bits x i hx hi, constant_bitrev8x4_bits x i hi, Nat.mod_eq_of_lt hx]

theorem bitrev8x4_eq_constant_bitrev8x4_witness :
    (0x12345678 : Nat) < 2 ^ 32 ∧ (bitrev8x4 0x12345678 = __constant_bitrev8x4 0x12345678 ∧
      bitrev8x4 0x12345678 = bitrev32 (_byteswap_ulong 0x12345678)) :=
  ⟨by decide, bitrev8x4_eq_constant_bitrev8x4 0x12345678 (by decide)⟩

/-- C9: full-width bit reversal commutes with the 32-bit byte swap: for every 32-bit `x`,
`bitrev32 (byteswap x) = byteswap (bitrev32 x)`, so `bitrev8x4 x` also equals reversing all
32 bits first and swapping the byte order afterwards. -/
theorem bitrev32_byteswap_comm (x : Nat) (hx : x < 2 ^ 32) :
    bitrev32 (_byteswap_ulong x) = _byteswap_ulong (bitrev32 x) ∧
    bitrev8x4 x = _byteswap_ulong (bitrev32 x) := by
  have e : ∀ j, j < 32 → (31 - j) ^^^ 24 = 31 - (j ^^^ 24) := by decide
  have key : __bitrev32 (_byteswap_ulong x) = _byteswap_ulong (__bitrev32 x) := by
    refine eq_of_testBit_below 32 (bitrev32_lt _) (byteswap_ulong_lt _) (fun i hi => ?_)
    rw [bitrev32_bits _ i hi, byteswap_ulong_bits x _ hx (by omega),
      byteswap_ulong_bits _ i (bitrev32_lt x) hi,
      bitrev32_bits x _ (xor_lt_32 hi (by norm_num)), e i hi]
  exact ⟨key, key⟩

theorem bitrev32_byteswap_comm_witness :
    (0x12345678 : Nat) < 2 ^ 32 ∧
      (bitrev32 (_byteswap_ulong 0x12345678) = _byteswap_ulong (bitrev32 0x12345678) ∧
        bitrev8x4 0x12345678 = _byteswap_ulong (bitrev32 0x12345678)) :=
  ⟨by decide, bitrev32_byteswap_comm 0x12345678 (by decide)⟩

/-- C10: big-endian conversion round-trips: `be32_to_cpu (cpu_to_be32 x) = x` for every
32-bit `x`, `be16_to_cpu (cpu_to_be16 x) = x` for every 16-bit `x` and
`be64_to_cpu (cpu_to_be64 x) = x` for every 64-bit `x`, the byte-swap intrinsics reversing
the byte order of their argument. -/
theorem be_to_cpu_cpu_to_be :
    (∀ x, x < 2 ^ 32 → be32_to_cpu (cpu_to_be32 x) = x) ∧
    (∀ x, x < 2 ^ 16 → be16_to_cpu (cpu_to_be16 x) = x) ∧
    (∀ x, x < 2 ^ 64 → be64_to_cpu (cpu_to_be64 x) = x) :=
  ⟨fun x hx => xor_swap_involutive 5 24 (by norm_num) _byteswap_ulong byteswap_ulong_lt
      byteswap_ulong_bits x hx,
    fun x hx => xor_swap_involutive 4 8 (by norm_num) _byteswap_ushort byteswap_ushort_lt
      byteswap_ushort_bits x hx,
    fun x hx => xor_swap_involutive 6 56 (by norm_num) _byteswap_uint64 byteswap_uint64_lt
      byteswap_uint64_bits x hx⟩

theorem be_to_cpu_cpu_to_be_witness :
    be32_to_cpu (cpu_to_be32 0x12345678) = 0x12345678 ∧
      be16_to_cpu (cpu_to_be16 0x1234) = 0x1234 ∧
      be64_to_cpu (cpu_to_be64 0x0102030405060708) = 0x0102030405060708 :=
  ⟨be_to_cpu_cpu_to_be.1 0x12345678 (by decide), be_to_cpu_cpu_to_be.2.1 0x1234 (by decide),
    be_to_cpu_cpu_to_be.2.2 0x0102030405060708 (by decide)⟩

theorem int_shl_eq_of_lt {a s : Nat} (h : a <<< s < 2 ^ 32) : int_shl a s = a <<< s :=
  Nat.mod_eq_of_lt h

theorem shiftLeft_lt_of_lt {a w s : Nat} (h : a < 2 ^ w) : a <<< s < 2 ^ (w + s) := by
  rw [Nat.shiftLeft_eq, pow_add]
  exact Nat.mul_lt_mul_of_pos_right h (by positivity)

theorem and_shiftLeft_eq_zero {a b w : Nat} (hb : b < 2 ^ w) : (a <<< w) &&& b = 0 := by
  apply Nat.eq_of_testBit_eq
  intro i
  rw [Nat.testBit_and, Nat.testBit_shiftLeft, Nat.zero_testBit]
  by_cases hi : i < w
  · have : ¬ (i ≥ w) := by omega
    simp [this]
  · rw [testBit_eq_false_of_lt hb (Nat.le_of_not_lt hi)]
    simp

/-- C11: composition correctness.  For every 16-bit `x`, `bitrev16 x` is
`(bitrev8 (x & 0xFF) << 8) | bitrev8 (x >> 8)`, a 16-bit value; for every 32-bit `x`,
`bitrev32 x` is `(bitrev16 (x & 0xFFFF) << 16) | bitrev16 (x >> 16)`, a 32-bit value; the
two operands of each OR have no bit in common. -/
theorem bitrev_composition :
    (∀ x, x < 2 ^ 16 →
      bitrev16 x = (bitrev8 (x &&& 0xFF) <<< 8) ||| bitrev8 (x >>> 8) ∧
      (bitrev8 (x &&& 0xFF) <<< 8) ||| bitrev8 (x >>> 8) < 2 ^ 16 ∧
      (bitrev8 (x &&& 0xFF) <<< 8) &&& bitrev8 (x >>> 8) = 0) ∧
    (∀ x, x < 2 ^ 32 →
      bitrev32 x = (bitrev16 (x &&& 0xFFFF) <<< 16) ||| bitrev16 (x >>> 16) ∧
      (bitrev16 (x &&& 0xFFFF) <<< 16) ||| bitrev16 (x >>> 16) < 2 ^ 32 ∧
      (bitrev16 (x &&& 0xFFFF) <<< 16) &&& bitrev16 (x >>> 16) = 0) := by
  constructor
  · intro x hx
    have hlo : (x &&& 0xFF) % 2 ^ 8 = x &&& 0xFF :=
      Nat.mod_eq_of_lt (Nat.and_lt_two_pow x (by norm_num : 0xFF < 2 ^ 8))
    have hhi : (x >>> 8) % 2 ^ 8 = x >>> 8 := by
      apply Nat.mod_eq_of_lt
      rw [Nat.shiftRight_eq_div_pow]
      omega
    have h1 : bitrev8 (x &&& 0xFF) <<< 8 < 2 ^ (8 + 8) := shiftLeft_lt_of_lt (bitrev8_lt _)
    have h2 : bitrev8 (x >>> 8) < 2 ^ 16 :=
      lt_of_lt_of_le (bitrev8_lt _) (by norm_num)
    have h3 : (bitrev8 (x &&& 0xFF) <<< 8) ||| bitrev8 (x >>> 8) < 2 ^ 16 :=
      Nat.or_lt_two_pow h1 h2
    refine ⟨?_, h3, and_shiftLeft_eq_zero (bitrev8_lt _)⟩
    show (int_shl (bitrev8 ((x &&& 0xff) % 2 ^ 8)) 8 ||| bitrev8 ((x >>> 8) % 2 ^ 8))
      % 2 ^ 16 = _
    rw [hlo, hhi, int_shl_eq_of_lt (lt_of_lt_of_le h1 (by norm_num))]
    exact Nat.mod_eq_of_lt h3
  · intro x hx
    have hlo : (x &&& 0xFFFF) % 2 ^ 16 = x &&& 0xFFFF :=
      Nat.mod_eq_of_lt (Nat.and_lt_two_pow x (by norm_num : 0xFFFF < 2 ^ 16))
    have hhi : (x >>> 16) % 2 ^ 16 = x >>> 16 := by
      apply Nat.mod_eq_of_lt
      rw [Nat.shiftRight_eq_div_pow]
      omega
    have h1 : bitrev16 (x &&& 0xFFFF) <<< 16 < 2 ^ (16 + 16) :=
      shiftLeft_lt_of_lt (bitrev16_lt _)
    have h2 : bitrev16 (x >>> 16) < 2 ^ 32 :=
      lt_of_lt_of_le (bitrev16_lt _) (by norm_num)
    have h3 : (bitrev16 (x &&& 0xFFFF) <<< 16) ||| bitrev16 (x >>> 16) < 2 ^ 32 :=
      Nat.or_lt_two_pow h1 h2
    refine ⟨?_, h3, and_shiftLeft_eq_zero (bitrev16_lt _)⟩
    show (int_shl (bitrev16 ((x &&& 0xffff) % 2 ^ 16)) 16 |||
      bitrev16 ((x >>> 16) % 2 ^ 16)) % 2 ^ 32 = _
    rw [hlo, hhi, int_shl_eq_of_lt h1]
    exact Nat.mod_eq_of_lt h3

theorem bitrev_composition_witness :
    (bitrev16 0x1234 = (bitrev8 (0x1234 &&& 0xFF) <<< 8) ||| bitrev8 (0x1234 >>> 8) ∧
      (bitrev8 (0x1234 &&& 0xFF) <<< 8) ||| bitrev8 (0x1234 >>> 8) < 2 ^ 16 ∧
      (bitrev8 (0x1234 &&& 0xFF) <<< 8) &&& bitrev8 (0x1234 >>> 8) = 0) ∧
    (bitrev32 0x12345678 =
        (bitrev16 (0x12345678 &&& 0xFFFF) <<< 16) ||| bitrev16 (0x12345678 >>> 16) ∧
      (bitrev16 (0x12345678 &&& 0xFFFF) <<< 16) ||| bitrev16 (0x12345678 >>> 16) < 2 ^ 32 ∧
      (bitrev16 (0x12345678 &&& 0xFFFF) <<< 16) &&& bitrev16 (0x12345678 >>> 16) = 0) :=
  ⟨bitrev_composition.1 0x1234 (by decide), bitrev_composition.2 0x12345678 (by decide)⟩

/-- C12: known values: `bitrev8 0x01 = 0x80`, `bitrev8 0xAA = 0x55`,
`bitrev32 0x00000001 = 0x80000000` and `bitrev32 0x12345678 = 0x1E6A2C48`. -/
theorem bitrev_known_values :
    bitrev8 0x01 = 0x80 ∧ bitrev8 0xAA = 0x55 ∧ bitrev32 0x00000001 = 0x80000000 ∧
      bitrev32 0x12345678 = 0x1E6A2C48 := by
  decide

/-- C13: highest-set-bit boundary values: `fls_u32 0 = 0`, `fls_u32 1 = 1`,
`fls_u32 0x80000000 = 32` and `fls_u32 0xFFFFFFFF = 32`. -/
theorem fls_u32_boundary_values :
    fls_u32 0 = some 0 ∧ fls_u32 1 = some 1 ∧ fls_u32 0x80000000 = some 32 ∧
      fls_u32 0xFFFFFFFF = some 32 := by
  decide

theorem int_shl_checked_of_lt {a s : Nat} (h : a <<< s < 2 ^ 31) :
    int_shl_checked a s = some (a <<< s) := by
  unfold int_shl_checked
  rw [if_pos h]

/-- The checked evaluation of `__bitrev8` never fails and returns the value of
`__bitrev8`. -/
theorem bitrev8_checked_eq : ∀ x, x < 2 ^ 8 → __bitrev8_checked x = some (__bitrev8 x) := by
  set_option maxRecDepth 100000 in decide

/-- The checked evaluation of `__bitrev16` never fails: the shifted operand is below
`2 ^ 8`, so the shift by 8 stays below `2 ^ 16`. -/
theorem bitrev16_checked_eq (x : Nat) : __bitrev16_checked x = some (__bitrev16 x) := by
  have hlo : __bitrev8 ((x &&& 0xff) % 2 ^ 8) < 2 ^ 8 := Nat.mod_lt _ (by norm_num)
  have hsh : __bitrev8 ((x &&& 0xff) % 2 ^ 8) <<< 8 < 2 ^ (8 + 8) := shiftLeft_lt_of_lt hlo
  unfold __bitrev16_checked __bitrev16
  rw [bitrev8_checked_eq _ (Nat.mod_lt _ (by norm_num)),
    bitrev8_checked_eq _ (Nat.mod_lt _ (by norm_num))]
  simp only [Option.bind_eq_bind, Option.some_bind, Option.pure_def]
  rw [int_shl_checked_of_lt (lt_of_lt_of_le hsh (by norm_num)),
    int_shl_eq_of_lt (lt_of_lt_of_le hsh (by norm_num))]
  rfl

/-- The checked evaluation of `__bitrev32` fails exactly on the odd arguments: bit 0 of `x`
becomes bit 15 of the reversed low half, and shifting that half by 16 leaves the range of
`int`.  On the even arguments it returns the value of `__bitrev32`. -/
theorem bitrev32_checked_eq (x : Nat) :
    __bitrev32_checked x = if x.testBit 0 = true then none else some (__bitrev32 x) := by
  have hb := bitrev16_bits ((x &&& 0xffff) % 2 ^ 16) (Nat.mod_lt _ (by norm_num))
  have h15 : (__bitrev16 ((x &&& 0xffff) % 2 ^ 16)).testBit 15 = x.testBit 0 := by
    have hm : Nat.testBit 0xffff 0 = true := by decide
    rw [hb.2 15 (by norm_num)]
    show ((x &&& 0xffff) % 2 ^ 16).testBit 0 = x.testBit 0
    rw [Nat.testBit_mod_two_pow, Nat.testBit_and, hm]
    simp
  unfold __bitrev32_checked
  rw [bitrev16_checked_eq, bitrev16_checked_eq]
  simp only [Option.bind_eq_bind, Option.some_bind, Option.pure_def]
  by_cases h0 : x.testBit 0 = true
  · rw [if_pos h0]
    have hge : 2 ^ 15 ≤ __bitrev16 ((x &&& 0xffff) % 2 ^ 16) :=
      Nat.testBit_implies_ge (h15.trans h0)
    have hnot : ¬ (__bitrev16 ((x &&& 0xffff) % 2 ^ 16) <<< 16 < 2 ^ 31) := by
      rw [Nat.shiftLeft_eq]
      omega
    unfold int_shl_checked
    rw [if_neg hnot]
    rfl
  · rw [if_neg h0]
    have hlt : __bitrev16 ((x &&& 0xffff) % 2 ^ 16) < 2 ^ 15 := by
      apply Nat.lt_pow_two_of_testBit
      intro i hi
      by_cases hi15 : i = 15
      · subst hi15
        rw [h15]
        simpa using h0
      · exact testBit_eq_false_of_lt hb.1 (by omega)
    have hsh : __bitrev16 ((x &&& 0xffff) % 2 ^ 16) <<< 16 < 2 ^ 31 := by
      rw [Nat.shiftLeft_eq]
      omega
    rw [int_shl_checked_of_lt hsh]
    unfold __bitrev32
    rw [int_shl_eq_of_lt (lt_trans hsh (by norm_num))]
    rfl

/-- C14, evaluation at the failing input `x = 1`: `__bitrev16 (1 & 0xffff) = 0x8000` is
promoted to `int`, and `0x8000 << 16 = 2 ^ 31` is not representable in `int`, so the checked
evaluation of `bitrev32` has no defined result; the same shift is reached by `bitrev8x4` at
`x = 0x01000000`. -/
theorem bitrev32_checked_one :
    __bitrev16 ((1 &&& 0xffff) % 2 ^ 16) = 0x8000 ∧
      int_shl_checked (__bitrev16 ((1 &&& 0xffff) % 2 ^ 16)) 16 = none ∧
      bitrev32_checked 1 = none ∧ bitrev8x4_checked 0x01000000 = none := by
  decide

/-- C15: the combined transform is an involution: for every 32-bit `x`,
`bitrev8x4 (bitrev8x4 x) = x` and `__constant_bitrev8x4 (__constant_bitrev8x4 x) = x`. -/
theorem bitrev8x4_involution :
    (∀ x, x < 2 ^ 32 → bitrev8x4 (bitrev8x4 x) = x) ∧
    (∀ x, x < 2 ^ 32 → __constant_bitrev8x4 (__constant_bitrev8x4 x) = x) := by
  have e : ∀ i : Nat, (i ^^^ 7) ^^^ 7 = i := fun i => by
    rw [Nat.xor_assoc, Nat.xor_self, Nat.xor_zero]
  constructor
  · intro x hx
    have hb : bitrev8x4 x < 2 ^ 32 := bitrev32_lt _
    refine eq_of_testBit_below 32 (bitrev32_lt _) hx (fun i hi => ?_)
    rw [bitrev8x4_bits _ i hb hi,
      bitrev8x4_bits x _ hx (xor_lt_32 hi (by norm_num)), e]
  · intro x hx
    have hc : __constant_bitrev8x4 x < 2 ^ 32 := Nat.mod_lt _ (by norm_num)
    refine eq_of_testBit_below 32 (Nat.mod_lt _ (by norm_num)) hx (fun i hi => ?_)
    rw [constant_bitrev8x4_bits _ i hi, Nat.mod_eq_of_lt hc,
      constant_bitrev8x4_bits x _ (xor_lt_32 hi (by norm_num)), Nat.mod_eq_of_lt hx, e]

theorem bitrev8x4_involution_witness :
    bitrev8x4 (bitrev8x4 0x12345678) = 0x12345678 ∧
      __constant_bitrev8x4 (__constant_bitrev8x4 0x12345678) = 0x12345678 :=
  ⟨bitrev8x4_involution.1 0x12345678 (by decide),
    bitrev8x4_involution.2 0x12345678 (by decide)⟩

/-- C16: the `fls` macro truncates a wider argument to 32 bits: for every 64-bit `v`,
`fls v = fls_u32 (v mod 2 ^ 32)`; for every `v` that is a nonzero multiple of `2 ^ 32`,
`fls v = 0` although `v` is nonzero, for instance at `v = 2 ^ 32`. -/
theorem fls_truncates_to_32_bits :
    (∀ v, v < 2 ^ 64 → fls v = fls_u32 (v % 2 ^ 32)) ∧
    (∀ v, v < 2 ^ 64 → v ≠ 0 → 2 ^ 32 ∣ v → fls v = some 0) ∧
    fls (2 ^ 32) = some 0 := by
  refine ⟨fun v _ => rfl, fun v _ _ hdvd => ?_, by decide⟩
  unfold fls
  rw [Nat.mod_eq_zero_of_dvd hdvd]
  rfl

theorem fls_truncates_to_32_bits_witness :
    fls 0x300000000 = fls_u32 (0x300000000 % 2 ^ 32) ∧ fls 0x300000000 = some 0 :=
  ⟨fls_truncates_to_32_bits.1 0x300000000 (by decide),
    fls_truncates_to_32_bits.2.1 0x300000000 (by decide) (by decide) (by decide)⟩

/-- C17: `bitrev8x4` reverses the bits inside each byte and leaves the four bytes in their
positions: for every 32-bit `x` and every byte index `k` in `0..3`, byte `k` of
`bitrev8x4 x` is `bitrev8` of byte `k` of `x`; for instance
`bitrev8x4 0x00000001 = 0x00000080`. -/
theorem bitrev8x4_bytes :
    (∀ x k, x < 2 ^ 32 → k < 4 →
      (bitrev8x4 x >>> (8 * k)) % 2 ^ 8 = bitrev8 ((x >>> (8 * k)) % 2 ^ 8)) ∧
    bitrev8x4 0x00000001 = 0x00000080 := by
  refine ⟨fun x k hx hk => ?_, by decide⟩
  have e : ∀ k, k < 4 → ∀ j, j < 8 → (8 * k + j) ^^^ 7 = 8 * k + (7 - j) := by decide
  refine eq_of_testBit_below 8 (Nat.mod_lt _ (by norm_num)) (bitrev8_lt _) (fun j hj => ?_)
  rw [Nat.testBit_mod_two_pow, Nat.testBit_shiftRight,
    bitrev8x4_bits x (8 * k + j) hx (by omega), bitrev8_byte_testBit, e k hk j hj]

theorem bitrev8x4_bytes_witness :
    (bitrev8x4 0x12345678 >>> (8 * 2)) % 2 ^ 8 = bitrev8 ((0x12345678 >>> (8 * 2)) % 2 ^ 8) :=
  bitrev8x4_bytes.1 0x12345678 2 (by decide) (by decide)

/-- Any map that reverses the `w` low bits commutes with XOR, AND and OR and fixes 0. -/
theorem rev_hom (w : Nat) (r : Nat → Nat)
    (hr : ∀ y, y < 2 ^ w → r y < 2 ^ w ∧ ∀ i, i < w → (r y).testBit i = y.testBit (w - 1 - i))
    (a b : Nat) (ha : a < 2 ^ w) (hb : b < 2 ^ w) :
    r (a ^^^ b) = r a ^^^ r b ∧ r (a &&& b) = r a &&& r b ∧ r (a ||| b) = r a ||| r b ∧
      r 0 = 0 := by
  have hx := Nat.xor_lt_two_pow ha hb
  have hand : a &&& b < 2 ^ w := lt_of_le_of_lt Nat.and_le_left ha
  have hor := Nat.or_lt_two_pow ha hb
  have h0 : (0 : Nat) < 2 ^ w := by positivity
  refine ⟨?_, ?_, ?_, ?_⟩
  · refine eq_of_testBit_below w (hr _ hx).1 (Nat.xor_lt_two_pow (hr a ha).1 (hr b hb).1)
      (fun i hi => ?_)
    rw [(hr _ hx).2 i hi, Nat.testBit_xor, Nat.testBit_xor, (hr a ha).2 i hi,
      (hr b hb).2 i hi]
  · refine eq_of_testBit_below w (hr _ hand).1
      (lt_of_le_of_lt Nat.and_le_left (hr a ha).1) (fun i hi => ?_)
    rw [(hr _ hand).2 i hi, Nat.testBit_and, Nat.testBit_and, (hr a ha).2 i hi,
      (hr b hb).2 i hi]
  · refine eq_of_testBit_below w (hr _ hor).1 (Nat.or_lt_two_pow (hr a ha).1 (hr b hb).1)
      (fun i hi => ?_)
    rw [(hr _ hor).2 i hi, Nat.testBit_or, Nat.testBit_or, (hr a ha).2 i hi,
      (hr b hb).2 i hi]
  · refine eq_of_testBit_below w (hr 0 h0).1 h0 (fun i hi => ?_)
    rw [(hr 0 h0).2 i hi, Nat.zero_testBit, Nat.zero_testBit]

theorem bitrev32_bits_spec : ∀ y, y < 2 ^ 32 → __bitrev32 y < 2 ^ 32 ∧
    ∀ i, i < 32 → (__bitrev32 y).testBit i = y.testBit (32 - 1 - i) :=
  fun y _ => ⟨bitrev32_lt y, fun i hi => bitrev32_bits y i hi⟩

/-- C18: bit reversal is a homomorphism for the bitwise operations: at the widths 32, 16
and 8, the reversal of `a XOR b`, `a AND b`, `a OR b` is the XOR, AND, OR of the reversals,
and the reversal of 0 is 0. -/
theorem bitrev_bitwise_hom :
    (∀ a b, a < 2 ^ 32 → b < 2 ^ 32 →
      bitrev32 (a ^^^ b) = bitrev32 a ^^^ bitrev32 b ∧
      bitrev32 (a &&& b) = bitrev32 a &&& bitrev32 b ∧
      bitrev32 (a ||| b) = bitrev32 a ||| bitrev32 b ∧ bitrev32 0 = 0) ∧
    (∀ a b, a < 2 ^ 16 → b < 2 ^ 16 →
      bitrev16 (a ^^^ b) = bitrev16 a ^^^ bitrev16 b ∧
      bitrev16 (a &&& b) = bitrev16 a &&& bitrev16 b ∧
      bitrev16 (a ||| b) = bitrev16 a ||| bitrev16 b ∧ bitrev16 0 = 0) ∧
    (∀ a b, a < 2 ^ 8 → b < 2 ^ 8 →
      bitrev8 (a ^^^ b) = bitrev8 a ^^^ bitrev8 b ∧
      bitrev8 (a &&& b) = bitrev8 a &&& bitrev8 b ∧
      bitrev8 (a ||| b) = bitrev8 a ||| bitrev8 b ∧ bitrev8 0 = 0) :=
  ⟨fun a b ha hb => rev_hom 32 __bitrev32 bitrev32_bits_spec a b ha hb,
    fun a b ha hb => rev_hom 16 __bitrev16 bitrev16_bits a b ha hb,
    fun a b ha hb => rev_hom 8 __bitrev8 bitrev8_bits a b ha hb⟩

theorem bitrev_bitwise_hom_witness :
    (bitrev32 (0x12345678 ^^^ 0x0F0F00FF) = bitrev32 0x12345678 ^^^ bitrev32 0x0F0F00FF ∧
      bitrev32 (0x12345678 &&& 0x0F0F00FF) = bitrev32 0x12345678 &&& bitrev32 0x0F0F00FF ∧
      bitrev32 (0x12345678 ||| 0x0F0F00FF) = bitrev32 0x12345678 ||| bitrev32 0x0F0F00FF ∧
      bitrev32 0 = 0) ∧
    (bitrev16 (0x1234 ^^^ 0x0FF0) = bitrev16 0x1234 ^^^ bitrev16 0x0FF0 ∧
      bitrev16 (0x1234 &&& 0x0FF0) = bitrev16 0x1234 &&& bitrev16 0x0FF0 ∧
      bitrev16 (0x1234 ||| 0x0FF0) = bitrev16 0x1234 ||| bitrev16 0x0FF0 ∧
      bitrev16 0 = 0) ∧
    (bitrev8 (0xA5 ^^^ 0x3C) = bitrev8 0xA5 ^^^ bitrev8 0x3C ∧
      bitrev8 (0xA5 &&& 0x3C) = bitrev8 0xA5 &&& bitrev8 0x3C ∧
      bitrev8 (0xA5 ||| 0x3C) = bitrev8 0xA5 ||| bitrev8 0x3C ∧ bitrev8 0 = 0) :=
  ⟨bitrev_bitwise_hom.1 0x12345678 0x0F0F00FF (by decide) (by decide),
    bitrev_bitwise_hom.2.1 0x1234 0x0FF0 (by decide) (by decide),
    bitrev_bitwise_hom.2.2 0xA5 0x3C (by decide) (by decide)⟩

/-- The downward scan returns `k` when bit `k` is set and every bit between `k` and `n` is
clear. -/
theorem bsrFrom_eq_some {n mask k : Nat} (hk : k < n) (hset : mask.testBit k = true)
    (hclear : ∀ j, k < j → j < n → mask.testBit j = false) : bsrFrom n mask = some k := by
  cases h : bsrFrom n mask with
  | none =>
    have := bsrFrom_none h k hk
    rw [hset] at this
    exact absurd this (by simp)
  | some m =>
    obtain ⟨h1, h2, h3⟩ := bsrFrom_some h
    congr 1
    rcases Nat.lt_trichotomy m k with hlt | heq | hgt
    · have := h3 k hlt hk
      rw [hset] at this
      exact absurd this (by simp)
    · exact heq
    · have := hclear m hgt h1
      rw [h2] at this
      exact absurd this (by simp)

/-- C19: bit reversal turns the lowest set bit into the highest: for every 32-bit `x` whose
least significant set bit is at index `t`, `fls_u32 (bitrev32 x) = 32 - t`; and
`bitrev32 x = 0` exactly when `x = 0`. -/
theorem fls_u32_bitrev32 :
    (∀ x t, x < 2 ^ 32 → x.testBit t = true → (∀ j, j < t → x.testBit j = false) →
      fls_u32 (bitrev32 x) = some ((32 - t : Nat) : Int)) ∧
    (∀ x, x < 2 ^ 32 → (bitrev32 x = 0 ↔ x = 0)) := by
  constructor
  · intro x t hx ht hlow
    have ht32 : t < 32 := by
      by_contra hge
      rw [testBit_eq_false_of_lt hx (Nat.le_of_not_lt hge)] at ht
      exact absurd ht (by simp)
    have hset : (__bitrev32 x).testBit (31 - t) = true := by
      rw [bitrev32_bits x _ (by omega)]
      have e : 31 - (31 - t) = t := by omega
      rw [e]
      exact ht
    have hclear : ∀ j, 31 - t < j → j < 32 → (__bitrev32 x).testBit j = false := by
      intro j hj1 hj2
      rw [bitrev32_bits x j hj2]
      exact hlow _ (by omega)
    have hne : __bitrev32 x ≠ 0 := by
      intro h0
      rw [h0, Nat.zero_testBit] at hset
      exact absurd hset (by simp)
    have hscan : _BitScanReverse (__bitrev32 x) = some (31 - t) :=
      bsrFrom_eq_some (by omega) hset hclear
    show fls_u32 (__bitrev32 x) = _
    unfold fls_u32
    rw [if_neg hne, hscan]
    have e : ((31 - t : Nat) : Int) + 1 = ((32 - t : Nat) : Int) := by omega
    simp only [e]
  · intro x hx
    constructor
    · intro h0
      refine eq_of_testBit_below 32 hx (by norm_num) (fun i hi => ?_)
      have h1 := bitrev32_bits x (31 - i) (by omega)
      have e : 31 - (31 - i) = i := by omega
      rw [e] at h1
      rw [← h1, Nat.zero_testBit]
      show (bitrev32 x).testBit (31 - i) = false
      rw [h0, Nat.zero_testBit]
    · intro h0
      rw [h0]
      decide

theorem fls_u32_bitrev32_witness :
    fls_u32 (bitrev32 0x00001230) = some ((32 - 4 : Nat) : Int) ∧
      (bitrev32 0x00001230 = 0 ↔ 0x00001230 = 0) :=
  ⟨fls_u32_bitrev32.1 0x00001230 4 (by decide) (by decide) (by decide),
    fls_u32_bitrev32.2 0x00001230 (by decide)⟩

/-- Counting over `0 .. n - 1` is unchanged by an involutive renumbering of the indices. -/
theorem countP_range_comp (n : Nat) (σ : Nat → Nat) (hσ : ∀ i, i < n → σ i < n)
    (hinv : ∀ i, i < n → σ (σ i) = i) (p : Nat → Bool) :
    (List.range n).countP (fun i => p (σ i)) = (List.range n).countP p := by
  have hnodup : ((List.range n).map σ).Nodup := by
    refine List.Nodup.map_on ?_ (List.nodup_range n)
    intro a ha b hb hab
    rw [← hinv a (List.mem_range.mp ha), ← hinv b (List.mem_range.mp hb), hab]
  have hperm : List.Perm ((List.range n).map σ) (List.range n) := by
    refine (List.perm_ext_iff_of_nodup hnodup (List.nodup_range n)).mpr (fun a => ?_)
    rw [List.mem_map, List.mem_range]
    constructor
    · rintro ⟨i, hi, rfl⟩
      exact hσ i (List.mem_range.mp hi)
    · intro ha
      exact ⟨σ a, List.mem_range.mpr (hσ a ha), hinv a ha⟩
  rw [← hperm.countP_eq p, List.countP_map]
  rfl

/-- A map whose bit `i` is bit `σ i` of its argument, for an involutive renumbering `σ` of
the `w` low bit positions, preserves the number of set bits. -/
theorem popcount_of_bits (w : Nat) (σ : Nat → Nat) (hσ : ∀ i, i < w → σ i < w)
    (hinv : ∀ i, i < w → σ (σ i) = i) (x y : Nat)
    (h : ∀ i, i < w → y.testBit i = x.testBit (σ i)) : popcount w y = popcount w x := by
  unfold popcount
  rw [← countP_range_comp w σ hσ hinv (fun i => x.testBit i)]
  apply List.countP_congr
  intro i hi
  rw [h i (List.mem_range.mp hi)]

/-- C20: bit reversal preserves the number of set bits: `bitrev32` and `bitrev8x4` on
32-bit values, `bitrev16` on 16-bit values and `bitrev8` on 8-bit values. -/
theorem bitrev_popcount :
    (∀ x, x < 2 ^ 32 → popcount 32 (bitrev32 x) = popcount 32 x ∧
      popcount 32 (bitrev8x4 x) = popcount 32 x) ∧
    (∀ x, x < 2 ^ 16 → popcount 16 (bitrev16 x) = popcount 16 x) ∧
    (∀ x, x < 2 ^ 8 → popcount 8 (bitrev8 x) = popcount 8 x) := by
  refine ⟨fun x hx => ⟨?_, ?_⟩, fun x hx => ?_, fun x hx => ?_⟩
  · exact popcount_of_bits 32 (fun i => 31 - i) (fun i hi => by dsimp only; omega)
      (fun i hi => by dsimp only; omega) x _ (fun i hi => bitrev32_bits x i hi)
  · exact popcount_of_bits 32 (fun i => i ^^^ 7) (fun i hi => xor_lt_32 hi (by norm_num))
      (fun i _ => by dsimp only; rw [Nat.xor_assoc, Nat.xor_self, Nat.xor_zero]) x _
      (fun i hi => bitrev8x4_bits x i hx hi)
  · exact popcount_of_bits 16 (fun i => 16 - 1 - i) (fun i hi => by dsimp only; omega)
      (fun i hi => by dsimp only; omega) x _ (fun i hi => (bitrev16_bits x hx).2 i hi)
  · exact popcount_of_bits 8 (fun i => 8 - 1 - i) (fun i hi => by dsimp only; omega)
      (fun i hi => by dsimp only; omega) x _ (fun i hi => (bitrev8_bits x hx).2 i hi)

theorem bitrev_popcount_witness :
    (popcount 32 (bitrev32 0x12345678) = popcount 32 0x12345678 ∧
      popcount 32 (bitrev8x4 0x12345678) = popcount 32 0x12345678) ∧
    popcount 16 (bitrev16 0x1234) = popcount 16 0x1234 ∧
    popcount 8 (bitrev8 0xA5) = popcount 8 0xA5 :=
  ⟨bitrev_popcount.1 0x12345678 (by decide), bitrev_popcount.2.1 0x1234 (by decide),
    bitrev_popcount.2.2 0xA5 (by decide)⟩

end Bitrev
